import Mathlib

/-!
# Verification of the go-download engine

Shallow embedding of the download engine from `download.go`
(the `download` package), together with proofs about the claims
of its specification.

Conventions:
* Go `int`/`int64` values are modelled as `Int` (`ℤ`) where sign checks
  matter and as `Nat` (`ℕ`) once positivity is established; all values
  involved are bounded by the total size, so 64-bit overflow cannot occur
  and unbounded integers are faithful.
* Go runtime panics (integer division by zero, nil dereference) are
  modelled as explicit outcome constructors.
* File-system and network interactions are modelled as explicit
  environment records passed to the functions that consume them.
-/

namespace GoDownload

/-- `defaultGoroutines` constant (download.go: `defaultGoroutines = 10`). -/
def defaultGoroutines : ℕ := 10

/-- Effective worker count, from `downloadRangeBytes`: if no
`Options.Concurrency` function is supplied, or it returns a value `< 1`,
the default (10) is used; otherwise its return value is used. -/
def effectiveGoroutines (concurrency : Option (ℤ → ℤ)) (size : ℤ) : ℕ :=
  match concurrency with
  | none => defaultGoroutines
  | some fn => if fn size < 1 then defaultGoroutines else (fn size).toNat

/-- The effective worker count is always at least 1. -/
theorem one_le_effectiveGoroutines (c : Option (ℤ → ℤ)) (s : ℤ) :
    1 ≤ effectiveGoroutines c s := by
  cases c with
  | none => exact Nat.le_of_sub_eq_zero rfl
  | some fn =>
    show 1 ≤ (if fn s < 1 then defaultGoroutines else (fn s).toNat)
    split
    · exact Nat.le_of_sub_eq_zero rfl
    · next h => omega

/-- A chunk plan entry: worker index, start offset and *inclusive* end
offset, exactly the triple `(idx, start, end)` handed to
`downloadPartial` by the launch loop of `downloadRangeBytes`. -/
structure Chunk where
  idx : ℕ
  start : ℕ
  endPos : ℕ
  deriving DecidableEq, Repr

/-- Number of bytes a chunk spans (`(end-start)+1` for `start ≤ end`). -/
def chunkLen (c : Chunk) : ℕ := c.endPos + 1 - c.start

/-- Total number of bytes a plan spans. -/
def planTotal (p : List Chunk) : ℕ := (p.map chunkLen).sum

/-- The launch loop of `downloadRangeBytes`:
`for ; i < goroutines; i++ { if i == goroutines-1 { chunkSize += remainer };
go f.downloadPartial(ctx, resume, i, pos, pos+chunkSize, wg, ch);
pos += chunkSize + 1 }`, written with an explicit fuel equal to the
number of remaining iterations. -/
def planLoop (goroutines remainer : ℕ) : ℕ → ℕ → ℕ → ℕ → List Chunk
  | 0, _, _, _ => []
  | fuel + 1, i, pos, chunkSize =>
    let cs := if i = goroutines - 1 then chunkSize + remainer else chunkSize
    { idx := i, start := pos, endPos := pos + cs } ::
      planLoop goroutines remainer fuel (i + 1) (pos + cs + 1) cs

/-- The chunk plan computed by `downloadRangeBytes` for a positive total
size `size` and worker count `goroutines`:
`chunkSize := size / goroutines; remainer := size % chunkSize;
chunkSize--` followed by the launch loop.  In Go, `size % chunkSize`
panics with a division by zero when `chunkSize = 0` (that is, when
`size < goroutines`); this is modelled by returning `none`. -/
def planChunks (size goroutines : ℕ) : Option (List Chunk) :=
  let chunkSize := size / goroutines
  if chunkSize = 0 then none
  else some (planLoop goroutines (size % chunkSize) goroutines 0 0 (chunkSize - 1))

/-- File-system side effects performed by the engine. -/
inductive FsEffect
  | mkdirStaging
  deriving DecidableEq, Repr

/-- Outcome of the opening phase of `downloadRangeBytes`, up to the point
where the chunk workers are launched. -/
inductive RangeStart
  | invalidContentLength (size : ℤ)
  | panicDivByZero
  | launch (resume : Bool) (plan : List Chunk)
  deriving DecidableEq, Repr

/-- The opening phase of `downloadRangeBytes`: the `f.size <= 0` guard,
the staging-directory check (`os.Stat`/`os.Mkdir`, setting `resume` when
the directory already exists), the worker-count computation and the chunk
plan.  `dirExists` states whether the staging directory for the URL hash
already exists.  Returns the outcome together with the list of
file-system effects performed. -/
def downloadRangeBytesStart (size : ℤ) (goroutines : ℕ) (dirExists : Bool) :
    RangeStart × List FsEffect :=
  if size ≤ 0 then (.invalidContentLength size, [])
  else
    let effects : List FsEffect := if dirExists then [] else [.mkdirStaging]
    let resume := dirExists
    match planChunks size.toNat goroutines with
    | none => (.panicDivByZero, effects)
    | some plan => (.launch resume plan, effects)

/-! ### Closed-form facts about the plan loop -/

/-- Contiguity from a given offset, as a boolean check: every chunk
starts exactly where the previous one ended plus one, is non-empty, and
the list tiles an interval starting at `a`. -/
def contiguousFromB : ℕ → List Chunk → Bool
  | _, [] => true
  | a, c :: t =>
    (c.start == a) && (a ≤ c.endPos : Bool) && contiguousFromB (c.endPos + 1) t

/-- `planLoop` produces exactly `fuel` chunks. -/
theorem planLoop_length (g r : ℕ) :
    ∀ fuel i pos cs, (planLoop g r fuel i pos cs).length = fuel := by
  intro fuel
  induction fuel with
  | zero => intro i pos cs; rfl
  | succ n ih =>
    intro i pos cs
    simp only [planLoop, List.length_cons, ih]

/-- `planLoop` always produces a contiguous tiling starting at `pos`. -/
theorem planLoop_contiguous (g r : ℕ) :
    ∀ fuel i pos cs, contiguousFromB pos (planLoop g r fuel i pos cs) = true := by
  intro fuel
  induction fuel with
  | zero => intro i pos cs; rfl
  | succ n ih =>
    intro i pos cs
    simp only [planLoop, contiguousFromB, Bool.and_eq_true, beq_iff_eq,
      decide_eq_true_eq]
    exact ⟨⟨trivial, Nat.le_add_right _ _⟩, ih _ _ _⟩

/-- The indices produced by `planLoop` are `i, i+1, …, i+fuel-1`. -/
theorem planLoop_map_idx (g r : ℕ) :
    ∀ fuel i pos cs, (planLoop g r fuel i pos cs).map Chunk.idx = List.range' i fuel := by
  intro fuel
  induction fuel with
  | zero => intro i pos cs; rfl
  | succ n ih =>
    intro i pos cs
    simp only [planLoop, List.map_cons, List.range'_succ, ih]

/-- Total size spanned by the chunks of `planLoop`, provided the loop
really runs up to the last index (`i + fuel = g`): every iteration
contributes `cs + 1` bytes and the last one additionally `r`. -/
theorem planLoop_total (g r : ℕ) :
    ∀ fuel i pos cs, 1 ≤ fuel → i + fuel = g →
      planTotal (planLoop g r fuel i pos cs) = fuel * (cs + 1) + r := by
  intro fuel
  induction fuel with
  | zero => intro i pos cs h; omega
  | succ n ih =>
    intro i pos cs _ hig
    rcases Nat.eq_zero_or_pos n with hn | hn
    · subst hn
      have hi : i = g - 1 := by omega
      simp only [planLoop, if_pos hi, planTotal, List.map_cons, List.map_nil,
        List.sum_cons, List.sum_nil, chunkLen]
      omega
    · have hi : ¬ i = g - 1 := by omega
      simp only [planLoop, if_neg hi, planTotal, List.map_cons, List.sum_cons, chunkLen]
      have hrec := ih (i + 1) (pos + cs + 1) cs hn (by omega)
      simp only [planTotal] at hrec
      rw [hrec]
      have hsub : pos + cs + 1 - pos = cs + 1 := by omega
      rw [hsub]
      ring

/-! ### Claim C1: correctness of the chunk plan -/

/-- The property claimed for the chunk plan: `downloadRangeBytes`
computes a plan (without panicking) of exactly `N` chunks that are
contiguous, non-overlapping, and cover `[0, S)` exactly. -/
def chunkPlanClaimHolds (S N : ℕ) : Bool :=
  match planChunks S N with
  | none => false
  | some p => (p.length == N) && contiguousFromB 0 p && (planTotal p == S)

/-- When the remainder stays below the quotient, `S % (S / N) = S % N`. -/
theorem mod_div_eq_mod (S N : ℕ) (h : S % N < S / N) :
    S % (S / N) = S % N := by
  have hS : S / N * N + S % N = S := by
    rw [Nat.mul_comm]; exact Nat.div_add_mod S N
  calc S % (S / N) = (S / N * N + S % N) % (S / N) := by rw [hS]
    _ = S % N % (S / N) := by rw [Nat.mul_add_mod]
    _ = S % N := Nat.mod_eq_of_lt h

/-- C1 (amended): for every total size `S > 0` and effective worker
count `N ≥ 1` with `S % N < S / N`, the chunk plan computed by
`downloadRangeBytes` yields exactly `N` contiguous, non-overlapping
chunks covering `[0, S)` exactly. -/
theorem chunkPlan_correct_of_remainder_lt_quotient (S N : ℕ)
    (_hS : 0 < S) (hN : 1 ≤ N) (h : S % N < S / N) :
    chunkPlanClaimHolds S N = true := by
  have hq : 0 < S / N := by omega
  have hq0 : ¬ S / N = 0 := by omega
  simp only [chunkPlanClaimHolds, planChunks, if_neg hq0, Bool.and_eq_true, beq_iff_eq]
  refine ⟨⟨planLoop_length N _ N 0 0 _, planLoop_contiguous N _ N 0 0 _⟩, ?_⟩
  rw [planLoop_total N (S % (S / N)) N 0 0 (S / N - 1) hN (by omega)]
  rw [mod_div_eq_mod S N h]
  have : S / N - 1 + 1 = S / N := by omega
  rw [this]
  have hS' : N * (S / N) + S % N = S := Nat.div_add_mod S N
  omega

/-- C1 counterexample: at total size `S = 5` with `N = 3` workers (both
within the claim's range `S > 0`, `N ≥ 1`) the computed plan is
`[0,0], [1,1], [2,2]`, which covers only `[0, 3)`, not `[0, 5)`: the
claim as stated is false. -/
theorem chunkPlan_claim_counterexample :
    (0 < 5 ∧ 1 ≤ 3) ∧ chunkPlanClaimHolds 5 3 = false := by decide

/-- Witness for C1's amended theorem at `S = 7`, `N = 2`. -/
theorem chunkPlan_correct_witness :
    0 < 7 ∧ 1 ≤ 2 ∧ 7 % 2 < 7 / 2 ∧ chunkPlanClaimHolds 7 2 = true :=
  ⟨by decide, by decide, by decide,
    chunkPlan_correct_of_remainder_lt_quotient 7 2 (by decide) (by decide) (by decide)⟩

/-! ### Claim C2: division-by-zero panic for small sizes -/

/-- C2: for every total size `0 < S < N` (with `N` the effective worker
count), `chunkSize = S / N` is `0` and `size % chunkSize` divides by
zero, so `downloadRangeBytes` panics instead of returning any error of
the spec's taxonomy. -/
theorem downloadRangeBytes_panics_of_size_lt_goroutines
    (size : ℤ) (goroutines : ℕ) (dirExists : Bool)
    (h0 : 0 < size) (hlt : size < (goroutines : ℤ)) :
    (downloadRangeBytesStart size goroutines dirExists).1 = .panicDivByZero := by
  have hpos : ¬ size ≤ 0 := by omega
  have hdiv : size.toNat / goroutines = 0 := Nat.div_eq_of_lt (by omega)
  simp [downloadRangeBytesStart, if_neg hpos, planChunks, hdiv]

/-- Witness for C2: a 5-byte file with the default worker count (10). -/
theorem downloadRangeBytes_panic_witness :
    0 < (5 : ℤ) ∧ (5 : ℤ) < ((effectiveGoroutines none 5 : ℕ) : ℤ) ∧
      (downloadRangeBytesStart 5 (effectiveGoroutines none 5) false).1
        = RangeStart.panicDivByZero :=
  ⟨by decide, by decide,
    downloadRangeBytes_panics_of_size_lt_goroutines 5 (effectiveGoroutines none 5) false
      (by decide) (by decide)⟩

/-! ### Claim C8: non-positive size is rejected up front -/

/-- C8: for every declared total size `size ≤ 0`, `downloadRangeBytes`
returns the invalid-content-length error before performing any
file-system effect, issuing any ranged request, or launching any
worker (the outcome is not a `launch`). -/
theorem downloadRangeBytes_invalidContentLength_of_nonpos
    (size : ℤ) (goroutines : ℕ) (dirExists : Bool) (h : size ≤ 0) :
    downloadRangeBytesStart size goroutines dirExists
      = (.invalidContentLength size, []) := by
  simp only [downloadRangeBytesStart, if_pos h]

/-- Witness for C8 at the size `-1` observed in the repository's own
`bad-content-length` test. -/
theorem downloadRangeBytes_invalidContentLength_witness :
    (-1 : ℤ) ≤ 0 ∧
      downloadRangeBytesStart (-1) 10 false
        = (RangeStart.invalidContentLength (-1), []) :=
  ⟨by decide, downloadRangeBytes_invalidContentLength_of_nonpos (-1) 10 false (by decide)⟩

/-! ### The metadata probe of `OpenContext` -/

/-- Result of the metadata probe (`http.Head`): a transport error
surfaced verbatim, or a response with status code, declared content
length and the `Accept-Ranges` header value. -/
inductive ProbeResult
  | transportErr
  | response (statusCode : ℤ) (contentLength : ℤ) (acceptRanges : String)
  deriving DecidableEq, Repr

/-- Outcome of `OpenContext` up to the choice of download path. -/
inductive OpenPhase
  | errTransport
  | errInvalidResponseCode (got expected : ℤ)
  | rangeBranch (size : ℤ)
  | wholeBranch (size : ℤ)
  deriving DecidableEq, Repr

/-- The probe phase of `OpenContext` (download.go): `http.Head(f.url)`
with transport errors returned verbatim, the status-code check producing
`InvalidResponseCode{got, expected: http.StatusOK}`, recording
`f.size = resp.ContentLength`, and the `Accept-Ranges: bytes` branch
selection.  Returns the phase outcome plus the file-system effects
performed so far (this phase performs none). -/
def openContextProbe (probe : ProbeResult) : OpenPhase × List FsEffect :=
  match probe with
  | .transportErr => (.errTransport, [])
  | .response status len ranges =>
    if status ≠ 200 then (.errInvalidResponseCode status 200, [])
    else if ranges = "bytes" then (.rangeBranch len, [])
    else (.wholeBranch len, [])

/-- C7: a probe returning any status other than 200 makes `OpenContext`
fail with `InvalidResponseCode{got, expected = 200}`, with no staging
directory or any other file-system state created. -/
theorem openContext_probe_failure (status len : ℤ) (ranges : String)
    (h : status ≠ 200) :
    openContextProbe (.response status len ranges)
      = (.errInvalidResponseCode status 200, []) := by
  simp [openContextProbe, h]

/-- Witness for C7 at status 404, the spec's own example. -/
theorem openContext_probe_failure_witness :
    (404 : ℤ) ≠ 200 ∧
      openContextProbe (.response 404 1000 "bytes")
        = (OpenPhase.errInvalidResponseCode 404 200, []) :=
  ⟨by decide, openContext_probe_failure 404 1000 "bytes" (by decide)⟩

/-! ### The aggregator's collection loop -/

/-- Errors a chunk worker can report (the construction sites in
`downloadPartial`). -/
inductive WorkerErr
  | invalidResponseCode (got expected : ℤ)
  | fsErr
  | transportErr
  deriving DecidableEq, Repr

/-- Cause of a completed context: `ctx.Err()` is either
`context.Canceled` or `context.DeadlineExceeded`. -/
inductive CtxCause
  | canceledCause
  | deadlineCause
  deriving DecidableEq, Repr

/-- A worker's message on the result channel (`partialResult`): a
readable chunk (its byte content once rewound) or an error. -/
inductive ChunkMsg
  | ok (content : List ℕ)
  | err (e : WorkerErr)
  deriving DecidableEq, Repr

/-- One resolution of the aggregator's `select`: either the context's
`Done` channel fired, or a worker result arrived on the channel. -/
inductive AggEvent
  | ctxDone (cause : CtxCause)
  | res (idx : ℕ) (msg : ChunkMsg)
  deriving DecidableEq, Repr

/-- Terminal outcome of the aggregator's collection loop.  `blocked`
marks an exhausted event list while the loop is still waiting (the real
loop would block on its `select`). -/
inductive AggResult
  | canceled (url : String)
  | deadlineExceeded (url : String)
  | workerErr (e : WorkerErr)
  | done (readers : List (Option (List ℕ)))
  | blocked
  deriving DecidableEq, Repr

/-- The `FOR` collection loop of `downloadRangeBytes`, consuming
`select` resolutions in order: on `ctx.Done()` return a `Canceled` or
`DeadlineExceeded` error carrying the URL according to `ctx.Err()`; on
an error result return it (fail-fast); otherwise store the reader at
its chunk index (`f.readers[res.idx] = res.r`) and leave the loop once
the received count `j` reaches `len(f.readers)`.  Returns the outcome
together with the unconsumed events. -/
def aggLoop (url : String) :
    List AggEvent → ℕ → List (Option (List ℕ)) → AggResult × List AggEvent
  | [], _, _ => (.blocked, [])
  | .ctxDone c :: rest, _, _ =>
    ((match c with
      | .canceledCause => .canceled url
      | .deadlineCause => .deadlineExceeded url), rest)
  | .res idx msg :: rest, j, readers =>
    match msg with
    | .err e => (.workerErr e, rest)
    | .ok content =>
      let readers' := readers.set idx (some content)
      if j + 1 = readers'.length then (.done readers', rest)
      else aggLoop url rest (j + 1) readers'

/-- The composed stream: `io.MultiReader(readers...)` concatenates the
per-chunk readers in slice order, i.e. ascending chunk index. -/
def composedStream (readers : List (Option (List ℕ))) : List ℕ :=
  (readers.map (fun r => r.getD [])).flatten

/-- C6: when the context terminates mid-transfer the aggregator returns
a `Canceled` error carrying the URL if `ctx.Err()` is
`context.Canceled`, and a `DeadlineExceeded` error carrying the URL if
the deadline elapsed; the two outcomes are distinct values, never
conflated. -/
theorem aggLoop_cancellation (url : String) (evs : List AggEvent) (j : ℕ)
    (readers : List (Option (List ℕ))) :
    aggLoop url (.ctxDone .canceledCause :: evs) j readers = (.canceled url, evs)
    ∧ aggLoop url (.ctxDone .deadlineCause :: evs) j readers
        = (.deadlineExceeded url, evs)
    ∧ ∀ u v : String, AggResult.canceled u ≠ AggResult.deadlineExceeded v :=
  ⟨rfl, rfl, fun _ _ h => AggResult.noConfusion h⟩

/-! ### The chunk worker `downloadPartial` -/

/-- Environment one chunk worker runs against: the staging file for its
index (`none` when `os.Stat` fails with `IsNotExist`; otherwise its
current byte content), and the ranged HTTP response for a
`Range: bytes=start-end` request (status code and served body). -/
structure WorkerEnv where
  staging : Option (List ℕ)
  rangeStatus : ℕ → ℕ → ℤ
  rangeBody : ℕ → ℕ → List ℕ

/-- Final act of one worker. -/
inductive WorkerOutcome
  | panicNilFileInfo
  | reportErr (e : WorkerErr)
  | reportOk (content : List ℕ)
  deriving DecidableEq, Repr

/-- A worker run: its outcome, and the byte-range GET it issued, if
any. -/
structure WorkerRun where
  outcome : WorkerOutcome
  requested : Option (ℕ × ℕ)
  deriving DecidableEq, Repr

/-- The network tail of `downloadPartial`: issue a byte-range GET for
`[start, end]`; a status other than 206 fails with
`InvalidResponseCode{got, expected: http.StatusPartialContent}`;
otherwise the body is appended to the staging file, the file is rewound
(`fh.Seek(0, 0)`), and its full content is reported.  `existing` is the
content already in the staging file (empty for a fresh file, the
partial bytes on append-resume). -/
def workerFetch (env : WorkerEnv) (start endPos : ℕ) (existing : List ℕ) : WorkerRun :=
  if env.rangeStatus start endPos ≠ 206 then
    { outcome := .reportErr (.invalidResponseCode (env.rangeStatus start endPos) 206),
      requested := some (start, endPos) }
  else
    { outcome := .reportOk (existing ++ env.rangeBody start endPos),
      requested := some (start, endPos) }

/-- `downloadPartial` (download.go): the resume logic followed by the
ranged fetch.  When resuming and the staging file exists:
* if its size is below `(end-start)+1`, append-resume — advance `start`
  by the bytes already present, open the file for read+append and fetch
  the remainder;
* otherwise open the file for reading and report success with no
  network request.

When resuming and the staging file does **not** exist, `os.Stat`
returns a nil `FileInfo` with an `IsNotExist` error; the code creates a
fresh file but then falls through to `fi.Size()` and dereferences the
nil interface — a runtime panic, modelled as `panicNilFileInfo`.
Without resume, a fresh staging file is created and the full range is
fetched. -/
def downloadPartialRun (env : WorkerEnv) (resumeable : Bool) (start endPos : ℕ) :
    WorkerRun :=
  if resumeable then
    match env.staging with
    | none => { outcome := .panicNilFileInfo, requested := none }
    | some content =>
      if content.length < (endPos - start) + 1 then
        workerFetch env (start + content.length) endPos content
      else
        { outcome := .reportOk content, requested := none }
  else
    workerFetch env start endPos []

/-- C4: a resuming worker whose staging file already has the expected
chunk length opens it for reading and reports success without issuing
any network request. -/
theorem downloadPartial_resume_complete (env : WorkerEnv) (start endPos : ℕ)
    (content : List ℕ) (hst : env.staging = some content)
    (hlen : content.length = (endPos - start) + 1) :
    downloadPartialRun env true start endPos
      = { outcome := .reportOk content, requested := none } := by
  simp [downloadPartialRun, hst, hlen]

/-- Witness for C4: a 3-byte chunk `[0, 2]` whose staging file already
holds 3 bytes is reported as-is with no request. -/
theorem downloadPartial_resume_complete_witness :
    (WorkerEnv.staging
        { staging := some [7, 8, 9], rangeStatus := fun _ _ => 206,
          rangeBody := fun _ _ => [] } = some [7, 8, 9])
    ∧ ([7, 8, 9] : List ℕ).length = (2 - 0) + 1
    ∧ downloadPartialRun
        { staging := some [7, 8, 9], rangeStatus := fun _ _ => 206,
          rangeBody := fun _ _ => [] } true 0 2
        = { outcome := .reportOk [7, 8, 9], requested := none } :=
  ⟨rfl, by decide,
    downloadPartial_resume_complete _ 0 2 [7, 8, 9] rfl (by decide)⟩

/-- C5 (code bug): a resuming worker whose staging file is missing does
*not* create a fresh file and download the full range — `os.Stat`
returns a nil `FileInfo`, the subsequent `fi.Size()` dereferences nil,
and the worker panics before any network request.  Evaluated at the
failing input: resume set, chunk `[0, 4]`, no staging file on disk. -/
theorem downloadPartial_resume_missing_file_panics :
    downloadPartialRun
      { staging := none, rangeStatus := fun _ _ => 206, rangeBody := fun _ _ => [] }
      true 0 4
      = { outcome := .panicNilFileInfo, requested := none } := rfl

/-! ### The File handle: `Stat` and `Close` -/

/-- State of one underlying chunk reader handle. -/
inductive RHandle
  | opened
  | closed
  deriving DecidableEq, Repr

/-- The `File` handle: URL, staging directory, declared size, the
modification time (`none` models the `time.Time{}` zero sentinel
`defaultTime`), and the per-chunk reader slots (`none` models a nil
entry left by a canceled transfer). -/
structure DlFile where
  url : String
  dir : String
  size : ℤ
  modTime : Option ℕ
  readers : List (Option RHandle)
  deriving DecidableEq, Repr

/-- Model of Go's `filepath.Base` as used on URLs here: the last
non-empty `/`-separated component; `"."` for the empty string, `"/"`
when the path consists only of slashes. -/
def baseName (path : String) : String :=
  if path = "" then "."
  else
    match ((path.splitOn "/").filter (fun c => c ≠ "")).reverse with
    | [] => "/"
    | c :: _ => c

/-- Go's `0770` file mode used for staging files (`fileMode`). -/
def fileMode : ℕ := 0o770

/-- Result of `Stat`. -/
inductive StatResult
  | pathError (op path : String)
  | fileInfo (name : String) (size : ℤ) (mode : ℕ) (modTime : ℕ) (isDir : Bool)
  deriving DecidableEq, Repr

/-- `Stat` (download.go): fails with a `*os.PathError` (bad file
descriptor) while `f.modTime` is the zero sentinel, and otherwise
reports `{basename of URL, size, 0770, modTime, not-a-directory}`. -/
def statFile (f : DlFile) : StatResult :=
  match f.modTime with
  | none => .pathError "stat" (baseName f.url)
  | some t => .fileInfo (baseName f.url) f.size fileMode t false

/-- The loop of `Close`: close every reader that is set, skipping nil
entries (possible if cancelled). -/
def closeReaders : List (Option RHandle) → List (Option RHandle)
  | [] => []
  | none :: t => none :: closeReaders t
  | some _ :: t => some .closed :: closeReaders t

/-- `Close` (download.go): runs the close loop over `f.readers`, resets
`f.modTime` to the zero sentinel `defaultTime`, and removes the staging
directory recursively (`os.RemoveAll(f.dir)`).  `dirOnDisk` is whether
the staging directory exists before the call; the returned flag is its
state afterwards. -/
def closeFile (f : DlFile) (_dirOnDisk : Bool) : DlFile × Bool :=
  ({ f with readers := closeReaders f.readers, modTime := none }, false)

/-- The close loop closes exactly the set entries and keeps nil entries
nil. -/
theorem closeReaders_eq_map (rs : List (Option RHandle)) :
    closeReaders rs = rs.map (Option.map fun _ => RHandle.closed) := by
  induction rs with
  | nil => rfl
  | cons r t ih =>
    cases r with
    | none => simp [closeReaders, ih]
    | some h => simp [closeReaders, ih]

/-- C9: `Close` closes every set chunk reader (skipping nil entries),
resets the modification time to its unset sentinel, removes the staging
directory, and afterwards every `Stat` call fails with a
descriptor-style path error. -/
theorem closeFile_spec (f : DlFile) (dirOnDisk : Bool) :
    (closeFile f dirOnDisk).1.readers
        = f.readers.map (Option.map fun _ => RHandle.closed)
    ∧ (closeFile f dirOnDisk).1.modTime = none
    ∧ (closeFile f dirOnDisk).2 = false
    ∧ statFile (closeFile f dirOnDisk).1 = .pathError "stat" (baseName f.url) :=
  ⟨closeReaders_eq_map f.readers, rfl, rfl, rfl⟩

/-! ### Claim C3: the composed stream -/

/-- The `n` bytes of the remote resource starting at offset `a`. -/
def segment (data : ℕ → ℕ) (a n : ℕ) : List ℕ :=
  (List.range n).map (fun k => data (a + k))

/-- Adjacent segments concatenate. -/
theorem segment_append (d : ℕ → ℕ) (a m n : ℕ) :
    segment d a m ++ segment d (a + m) n = segment d a (m + n) := by
  simp only [segment, List.range_add, List.map_append, List.map_map]
  congr 1
  apply List.map_congr_left
  intro k _
  simp only [Function.comp_apply, Nat.add_assoc]

/-- The body a range-honouring server serves for the byte-range request
of a chunk: the `chunkLen c` resource bytes starting at `c.start`. -/
def chunkData (data : ℕ → ℕ) (c : Chunk) : List ℕ :=
  segment data c.start (chunkLen c)

/-- Concatenating the chunk bodies of a contiguous plan, in plan order,
yields one contiguous segment of the resource. -/
theorem flatten_chunkData (d : ℕ → ℕ) :
    ∀ (p : List Chunk) (a : ℕ), contiguousFromB a p = true →
      (p.map (chunkData d)).flatten = segment d a (planTotal p) := by
  intro p
  induction p with
  | nil => intro a _; rfl
  | cons c t ih =>
    intro a h
    simp only [contiguousFromB, Bool.and_eq_true, beq_iff_eq,
      decide_eq_true_eq] at h
    obtain ⟨⟨hs, hle⟩, ht⟩ := h
    simp only [List.map_cons, List.flatten_cons, planTotal, List.sum_cons]
    have hrec := ih (c.endPos + 1) ht
    simp only [planTotal] at hrec
    rw [hrec]
    have h1 : c.endPos + 1 = a + chunkLen c := by unfold chunkLen; omega
    rw [chunkData, hs, h1]
    exact segment_append d a (chunkLen c) ((t.map chunkLen).sum)

/-- The bytes the computed plan actually spans:
`N * (S / N) + S % (S / N)`. -/
def coveredSize (S N : ℕ) : ℕ := N * (S / N) + S % (S / N)

/-- A successfully computed plan has one chunk per worker index. -/
theorem planChunks_map_idx (S N : ℕ) (plan : List Chunk)
    (h : planChunks S N = some plan) :
    plan.map Chunk.idx = List.range N := by
  unfold planChunks at h
  by_cases hq : S / N = 0
  · simp [hq] at h
  · simp only [hq, if_neg, if_false] at h
    rw [Option.some_inj] at h
    subst h
    rw [planLoop_map_idx, List.range_eq_range']

/-- A successfully computed plan has exactly `N` chunks. -/
theorem planChunks_length (S N : ℕ) (plan : List Chunk)
    (h : planChunks S N = some plan) : plan.length = N := by
  unfold planChunks at h
  by_cases hq : S / N = 0
  · simp [hq] at h
  · simp only [hq, if_neg, if_false] at h
    rw [Option.some_inj] at h
    subst h
    rw [planLoop_length]

/-- A successfully computed plan is contiguous from offset 0. -/
theorem planChunks_contiguous (S N : ℕ) (plan : List Chunk)
    (h : planChunks S N = some plan) : contiguousFromB 0 plan = true := by
  unfold planChunks at h
  by_cases hq : S / N = 0
  · simp [hq] at h
  · simp only [hq, if_neg, if_false] at h
    rw [Option.some_inj] at h
    subst h
    exact planLoop_contiguous _ _ _ _ _ _

/-- A successfully computed plan spans exactly `coveredSize S N` bytes. -/
theorem planChunks_total (S N : ℕ) (plan : List Chunk) (hN : 1 ≤ N)
    (h : planChunks S N = some plan) : planTotal plan = coveredSize S N := by
  unfold planChunks at h
  by_cases hq : S / N = 0
  · simp [hq] at h
  · simp only [hq, if_neg, if_false] at h
    rw [Option.some_inj] at h
    subst h
    rw [planLoop_total N (S % (S / N)) N 0 0 (S / N - 1) hN (Nat.zero_add N)]
    have hq1 : S / N - 1 + 1 = S / N :=
      Nat.succ_pred_eq_of_pos (Nat.pos_of_ne_zero hq)
    rw [hq1, coveredSize]

/-- In a successfully computed plan, the chunk carrying index `i` sits
at position `i`. -/
theorem planChunks_getElem_idx (S N : ℕ) (plan : List Chunk)
    (h : planChunks S N = some plan) :
    ∀ c ∈ plan, plan[c.idx]? = some c := by
  intro c hc
  obtain ⟨k, hk⟩ := List.mem_iff_getElem?.mp hc
  have hmap : (plan.map Chunk.idx)[k]? = some c.idx := by
    rw [List.getElem?_map, hk, Option.map_some']
  rw [planChunks_map_idx S N plan h] at hmap
  have hklt : k < N := by
    by_contra hge
    rw [List.getElem?_eq_none (by simpa [List.length_range] using Nat.le_of_not_lt hge)] at hmap
    exact Option.noConfusion hmap
  rw [List.getElem?_range hklt] at hmap
  have : c.idx = k := by injection hmap with h'; omega
  rw [this, hk]

/-- Filling lemma for the collection loop: consuming a run of successful
results with pairwise-distinct in-range indices — exactly the number the
counter `j` still needs — ends in `done` precisely when the last of them
arrives, leaves every later event unconsumed, and produces the slice `F`
determined by the indices, independent of arrival order. -/
theorem aggLoop_fill (url : String) :
    ∀ (todo : List (ℕ × List ℕ)) (readers F : List (Option (List ℕ)))
      (j : ℕ) (extra : List AggEvent),
      (todo.map Prod.fst).Nodup →
      (∀ q ∈ todo, q.1 < readers.length) →
      j + todo.length = readers.length →
      (∀ q ∈ todo, readers[q.1]? = some none) →
      F.length = readers.length →
      (∀ q ∈ todo, F[q.1]? = some (some q.2)) →
      (∀ i : ℕ, i ∉ todo.map Prod.fst → readers[i]? = F[i]?) →
      todo ≠ [] →
      aggLoop url (todo.map (fun q => .res q.1 (.ok q.2)) ++ extra) j readers
        = (.done F, extra) := by
  intro todo
  induction todo with
  | nil => intro readers F j extra _ _ _ _ _ _ _ hne; exact absurd rfl hne
  | cons q t ih =>
    intro readers F j extra hnd hrange hcount hslot hFlen hFval hout _
    obtain ⟨hq1, hq2⟩ := List.nodup_cons.mp hnd
    have hqlt : q.1 < readers.length := hrange q (List.mem_cons_self q t)
    have hset : (readers.set q.1 (some q.2))[q.1]? = some (some q.2) := by
      rw [List.getElem?_set_self', hslot q (List.mem_cons_self q t)]
      rfl
    simp only [List.map_cons, List.cons_append, aggLoop, List.length_set]
    by_cases ht : t = []
    case pos =>
      subst ht
      have hj : j + 1 = readers.length := by
        simpa using hcount
      rw [if_pos hj]
      have hRF : readers.set q.1 (some q.2) = F := by
        apply List.ext_getElem?
        intro n
        by_cases hn : n = q.1
        · subst hn
          rw [hset, hFval q (List.mem_cons_self q [])]
        · rw [List.getElem?_set_ne (fun h => hn h.symm)]
          exact hout n (by simpa using hn)
      rw [hRF]
      rfl
    case neg =>
      have htne : t ≠ [] := ht
      have hj : ¬ (j + 1 = readers.length) := by
        have : 1 ≤ t.length := List.length_pos.mpr htne
        simp only [List.length_cons] at hcount
        omega
      rw [if_neg hj]
      apply ih (readers.set q.1 (some q.2)) F (j + 1) extra hq2
      · intro p hp
        rw [List.length_set]
        exact hrange p (List.mem_cons_of_mem q hp)
      · rw [List.length_set]
        simp only [List.length_cons] at hcount
        omega
      · intro p hp
        have hne : q.1 ≠ p.1 := by
          intro h
          exact hq1 (h ▸ List.mem_map_of_mem Prod.fst hp)
        rw [List.getElem?_set_ne hne]
        exact hslot p (List.mem_cons_of_mem q hp)
      · rw [List.length_set]; exact hFlen
      · intro p hp
        exact hFval p (List.mem_cons_of_mem q hp)
      · intro i hi
        by_cases hiq : i = q.1
        · subst hiq
          rw [hset, hFval q (List.mem_cons_self q t)]
        · rw [List.getElem?_set_ne (fun h => hiq h.symm)]
          apply hout
          simp only [List.map_cons, List.mem_cons]
          rintro (h | h)
          · exact hiq h
          · exact hi h
      · exact htne

/-- C3 (amended): for every successful ranged transfer against a
range-honouring server, whatever the arrival order of the chunk
results, the collection loop leaves exactly when every planned chunk
has delivered one result (later events stay unconsumed), the composed
stream is the concatenation of the per-chunk readers in ascending chunk
index order, and reading it to exhaustion yields exactly
`coveredSize S N = N*(S/N) + S%(S/N)` bytes — which equals the declared
size `S` exactly when `S % N < S / N`. -/
theorem composed_stream_ascending (url : String) (S N : ℕ) (data : ℕ → ℕ)
    (plan perm : List Chunk) (extra : List AggEvent)
    (hN : 1 ≤ N)
    (hplan : planChunks S N = some plan)
    (hperm : perm.Perm plan) :
    aggLoop url
        (perm.map (fun c => .res c.idx (.ok (chunkData data c))) ++ extra)
        0 (List.replicate N none)
      = (.done (plan.map (fun c => some (chunkData data c))), extra)
    ∧ composedStream (plan.map (fun c => some (chunkData data c)))
        = segment data 0 (coveredSize S N)
    ∧ (composedStream (plan.map (fun c => some (chunkData data c)))).length
        = coveredSize S N
    ∧ (S % N < S / N →
        (composedStream (plan.map (fun c => some (chunkData data c)))).length = S) := by
  have hidx : plan.map Chunk.idx = List.range N := planChunks_map_idx S N plan hplan
  have hlen : plan.length = N := planChunks_length S N plan hplan
  have hpermidx : (perm.map Chunk.idx).Perm (List.range N) := by
    rw [← hidx]; exact hperm.map Chunk.idx
  have hmem : ∀ c ∈ perm, c.idx < N := by
    intro c hc
    have : c.idx ∈ List.range N := hpermidx.mem_iff.mp (List.mem_map_of_mem Chunk.idx hc)
    exact List.mem_range.mp this
  have hcomposed :
      composedStream (plan.map (fun c => some (chunkData data c)))
        = segment data 0 (coveredSize S N) := by
    unfold composedStream
    rw [List.map_map]
    have hmapsimp :
        ((fun r => Option.getD r []) ∘ fun c => some (chunkData data c))
          = chunkData data := by
      funext c; rfl
    rw [hmapsimp, flatten_chunkData data plan 0 (planChunks_contiguous S N plan hplan),
      planChunks_total S N plan hN hplan]
  refine ⟨?_, hcomposed, ?_, ?_⟩
  · -- the aggregation run
    have hev :
        perm.map (fun c => AggEvent.res c.idx (.ok (chunkData data c)))
          = (perm.map (fun c => (c.idx, chunkData data c))).map
              (fun q => AggEvent.res q.1 (.ok q.2)) := by
      rw [List.map_map]
      apply List.map_congr_left
      intro c _
      rfl
    rw [hev]
    apply aggLoop_fill url (perm.map (fun c => (c.idx, chunkData data c)))
      (List.replicate N none) (plan.map (fun c => some (chunkData data c))) 0 extra
    · rw [List.map_map]
      have : (Prod.fst ∘ fun c => (c.idx, chunkData data c)) = Chunk.idx := by
        funext c; rfl
      rw [this]
      exact hpermidx.nodup_iff.mpr (List.nodup_range N)
    · rintro q hq
      obtain ⟨c, hc, rfl⟩ := List.mem_map.mp hq
      rw [List.length_replicate]
      exact hmem c hc
    · rw [List.length_replicate, Nat.zero_add, List.length_map]
      rw [hperm.length_eq, hlen]
    · rintro q hq
      obtain ⟨c, hc, rfl⟩ := List.mem_map.mp hq
      rw [List.getElem?_replicate, if_pos (hmem c hc)]
    · rw [List.length_map, List.length_replicate, hlen]
    · rintro q hq
      obtain ⟨c, hc, rfl⟩ := List.mem_map.mp hq
      have hc' : c ∈ plan := hperm.mem_iff.mp hc
      rw [List.getElem?_map, planChunks_getElem_idx S N plan hplan c hc',
        Option.map_some']
    · intro i hi
      rw [List.map_map] at hi
      have hcomp : (Prod.fst ∘ fun c => (c.idx, chunkData data c)) = Chunk.idx := by
        funext c; rfl
      rw [hcomp] at hi
      have hiN : ¬ (i < N) := by
        intro hlt
        exact hi (hpermidx.mem_iff.mpr (List.mem_range.mpr hlt))
      rw [List.getElem?_replicate, if_neg hiN,
        List.getElem?_eq_none (by rw [List.length_map, hlen]; omega)]
    · intro hnil
      have := congrArg List.length hnil
      simp only [List.length_map, List.length_nil, hperm.length_eq, hlen] at this
      omega
  · rw [hcomposed]
    simp [segment]
  · intro hrem
    rw [hcomposed]
    simp only [segment, List.length_map, List.length_range]
    unfold coveredSize
    rw [mod_div_eq_mod S N hrem]
    exact Nat.div_add_mod S N

/-- C3 counterexample: at `S = 5`, `N = 3` (a successful transfer — every
chunk of the computed plan delivers, against a server honouring ranges
over the identity resource, results arriving out of order), the composed
stream reads 3 bytes, not the declared 5: the claim's "exactly the
declared total size" is false. -/
theorem composed_stream_size_counterexample :
    planChunks 5 3 = some [⟨0, 0, 0⟩, ⟨1, 1, 1⟩, ⟨2, 2, 2⟩]
    ∧ aggLoop "u"
        (([⟨2, 2, 2⟩, ⟨0, 0, 0⟩, ⟨1, 1, 1⟩] : List Chunk).map
          (fun c => .res c.idx (.ok (chunkData (fun k => k) c))))
        0 (List.replicate 3 none)
      = (.done (([⟨0, 0, 0⟩, ⟨1, 1, 1⟩, ⟨2, 2, 2⟩] : List Chunk).map
          (fun c => some (chunkData (fun k => k) c))), [])
    ∧ (composedStream (([⟨0, 0, 0⟩, ⟨1, 1, 1⟩, ⟨2, 2, 2⟩] : List Chunk).map
          (fun c => some (chunkData (fun k => k) c)))).length = 3
    ∧ (3 : ℕ) ≠ 5 := by
  refine ⟨by decide, ?_, by decide, by decide⟩
  decide

/-- Witness for C3's amended theorem at `S = 7`, `N = 2`, results
arriving in reverse order. -/
theorem composed_stream_ascending_witness :
    (1 ≤ 2 ∧ planChunks 7 2 = some [⟨0, 0, 2⟩, ⟨1, 3, 6⟩])
    ∧ (composedStream (([⟨0, 0, 2⟩, ⟨1, 3, 6⟩] : List Chunk).map
          (fun c => some (chunkData (fun k => k) c)))).length = coveredSize 7 2 :=
  ⟨⟨by decide, by decide⟩,
    (composed_stream_ascending "u" 7 2 (fun k => k) [⟨0, 0, 2⟩, ⟨1, 3, 6⟩]
      ([⟨0, 0, 2⟩, ⟨1, 3, 6⟩] : List Chunk).reverse [] (by decide) (by decide)
      (List.reverse_perm _)).2.2.1⟩

/-! ### Claim C10: fail-fast and the join barrier -/

/-- Phase of one chunk-worker goroutine: still working, result handed
over on the channel (but the deferred `wg.Done()` and return not yet
run), or exited. -/
inductive WPhase
  | working
  | delivered
  | exited
  deriving DecidableEq, Repr

/-- Phase of the aggregator (the tail of `downloadRangeBytes` after
launching the workers). -/
inductive APhase
  | looping (j : ℕ)
  | retErr
  | retOk
  | retCancel
  deriving DecidableEq, Repr

/-- Global state of one ranged transfer after worker launch: the worker
phases, the aggregator phase, whether the context is done, and whether
the background watcher has closed the result channel. -/
structure SysState where
  workers : List WPhase
  agg : APhase
  ctxDone : Bool
  chClosed : Bool
  deriving DecidableEq, Repr

/-- Post-launch initial state: `g` workers running, aggregator looping
with `j = 0`, context alive, channel open. -/
def initState (g : ℕ) : SysState :=
  { workers := List.replicate g .working, agg := .looping 0,
    ctxDone := false, chClosed := false }

/-- Interleaving semantics of `downloadRangeBytes` after launch.
`isErr i` states whether worker `i`'s result is an error.  Steps:
* `deliver` — a working worker rendezvouses its result with the looping
  aggregator (`ch <- partialResult` meeting `case res := <-ch`); an
  error result makes the aggregator return at once (`return res.err`),
  otherwise `j++` and at `j = len(f.readers)` the loop breaks;
* `wexit` — a worker that has delivered runs its deferred `wg.Done()`
  and exits;
* `wabort` — once the context is done, a working worker may take the
  `<-ctx.Done()` arm of its send `select` and exit without delivering;
* `ctxFires` — the context completes (cancellation or deadline);
* `aggCancel` — the looping aggregator takes its `<-ctx.Done()` arm and
  returns the cancellation error;
* `watcherClose` — the background watcher, having seen `<-ctx.Done()`
  and finished `wg.Wait()` (all workers exited), closes the channel. -/
inductive SysStep (isErr : ℕ → Bool) (g : ℕ) : SysState → SysState → Prop
  | deliver (s : SysState) (i j : ℕ) :
      s.workers[i]? = some .working → s.agg = .looping j → s.chClosed = false →
      SysStep isErr g s
        { s with workers := s.workers.set i .delivered,
                 agg := if isErr i then .retErr
                        else if j + 1 = g then .retOk else .looping (j + 1) }
  | wexit (s : SysState) (i : ℕ) :
      s.workers[i]? = some .delivered →
      SysStep isErr g s { s with workers := s.workers.set i .exited }
  | wabort (s : SysState) (i : ℕ) :
      s.workers[i]? = some .working → s.ctxDone = true →
      SysStep isErr g s { s with workers := s.workers.set i .exited }
  | ctxFires (s : SysState) :
      s.ctxDone = false →
      SysStep isErr g s { s with ctxDone := true }
  | aggCancel (s : SysState) (j : ℕ) :
      s.agg = .looping j → s.ctxDone = true →
      SysStep isErr g s { s with agg := .retCancel }
  | watcherClose (s : SysState) :
      s.ctxDone = true → (∀ w ∈ s.workers, w = .exited) → s.chClosed = false →
      SysStep isErr g s { s with chClosed := true }

/-- Reachability from the post-launch initial state. -/
def Reach (isErr : ℕ → Bool) (g : ℕ) (s : SysState) : Prop :=
  Relation.ReflTransGen (SysStep isErr g) (initState g) s

/-- The state reached from `initState 2` by one `deliver` step of an
error-reporting worker 0: the aggregator has returned the error while
worker 1 is still working. -/
def errReturnedState : SysState :=
  { workers := [.delivered, .working], agg := .retErr,
    ctxDone := false, chClosed := false }

/-- C10 counterexample: with two workers, worker 0 reporting an error,
one `deliver` step reaches a state where the aggregator has already
returned the error while worker 1 is still working — the launched
workers have *not* all exited when the aggregator's call returns. -/
theorem aggregator_error_return_counterexample :
    Reach (fun i => i == 0) 2 errReturnedState
    ∧ errReturnedState.agg = APhase.retErr
    ∧ WPhase.working ∈ errReturnedState.workers
    ∧ WPhase.working ≠ WPhase.exited := by
  refine ⟨?_, rfl, by decide, by decide⟩
  exact Relation.ReflTransGen.single
    (SysStep.deliver (initState 2) 0 0 (by decide) rfl rfl)

/-- C10 (amended): the aggregator is fail-fast — from any reachable
state where it is still collecting and an error-reporting worker is
ready, a single step returns that error immediately, without waiting
for the remaining results; the join barrier (`wg.Wait`) does not guard
the aggregator's return but the watcher's closing of the result
channel: in every reachable state with the channel closed, the context
has completed and every launched worker has exited. -/
theorem aggregator_fail_fast_and_join_barrier (isErr : ℕ → Bool) (g : ℕ) :
    (∀ (s : SysState) (i j : ℕ), Reach isErr g s →
      s.workers[i]? = some WPhase.working → s.agg = .looping j →
      s.chClosed = false → isErr i = true →
      ∃ s', SysStep isErr g s s' ∧ s'.agg = APhase.retErr
        ∧ s'.workers = s.workers.set i .delivered ∧ s'.chClosed = s.chClosed)
    ∧ (∀ s : SysState, Reach isErr g s → s.chClosed = true →
        s.ctxDone = true ∧ ∀ w ∈ s.workers, w = WPhase.exited) := by
  constructor
  · intro s i j _ hw hagg hch hErr
    refine ⟨_, SysStep.deliver s i j hw hagg hch, ?_, rfl, rfl⟩
    simp [hErr]
  · intro s hreach
    induction hreach with
    | refl =>
      intro h
      simp [initState] at h
    | tail _ step ih =>
      cases step with
      | deliver i j h1 h2 h3 =>
        intro h
        exact absurd h (by simp [h3])
      | wexit i h1 =>
        intro h
        obtain ⟨hctx, hall⟩ := ih h
        refine ⟨hctx, ?_⟩
        intro w hw
        rcases List.mem_or_eq_of_mem_set hw with hmem | heq
        · exact hall w hmem
        · exact heq
      | wabort i h1 h2 =>
        intro h
        obtain ⟨hctx, hall⟩ := ih h
        refine ⟨hctx, ?_⟩
        intro w hw
        rcases List.mem_or_eq_of_mem_set hw with hmem | heq
        · exact hall w hmem
        · exact heq
      | ctxFires h1 =>
        intro h
        obtain ⟨_, hall⟩ := ih h
        exact ⟨rfl, hall⟩
      | aggCancel j h1 h2 =>
        intro h
        exact ih h
      | watcherClose h1 h2 h3 =>
        intro _
        exact ⟨h1, h2⟩

/-- Intermediate state: context done, the single worker still running. -/
def oneWorkerCtxDone : SysState :=
  { workers := [.working], agg := .looping 0, ctxDone := true, chClosed := false }

/-- Intermediate state: context done, the single worker exited. -/
def oneWorkerExited : SysState :=
  { workers := [.exited], agg := .looping 0, ctxDone := true, chClosed := false }

/-- Final state: the watcher has closed the channel. -/
def oneWorkerClosed : SysState :=
  { workers := [.exited], agg := .looping 0, ctxDone := true, chClosed := true }

/-- Witness for C10's amended theorem: the fail-fast step taken from
the initial one-worker state, and the join-barrier invariant evaluated
at the reachable state `context done, worker exited, channel closed`. -/
theorem aggregator_fail_fast_and_join_barrier_witness :
    (∃ s', SysStep (fun _ => true) 1 (initState 1) s'
        ∧ s'.agg = APhase.retErr
        ∧ s'.workers = (initState 1).workers.set 0 .delivered
        ∧ s'.chClosed = (initState 1).chClosed)
    ∧ (oneWorkerClosed.ctxDone = true
        ∧ ∀ w ∈ oneWorkerClosed.workers, w = WPhase.exited) :=
  ⟨(aggregator_fail_fast_and_join_barrier (fun _ => true) 1).1
      (initState 1) 0 0 Relation.ReflTransGen.refl (by decide) rfl rfl rfl,
    (aggregator_fail_fast_and_join_barrier (fun _ => true) 1).2
      oneWorkerClosed
      (Relation.ReflTransGen.head (SysStep.ctxFires (initState 1) rfl)
        (Relation.ReflTransGen.head
          (SysStep.wabort oneWorkerCtxDone 0 (by decide) rfl)
          (Relation.ReflTransGen.single
            (SysStep.watcherClose oneWorkerExited rfl (by decide) rfl))))
      rfl⟩

end GoDownload
